import Mathlib

/-!
Verification development for the jpamb JVM descriptor codec
(`src/lib/jpamb/jvm/base.py`): types, class names, parameter lists,
method and field identifiers, absolute names, and the literal-value
tokenizer and parser.

The Python source is shallowly embedded: each Python function becomes a
Lean function over `List Char` / `String`, raised `ValueError`s become
`Except.error`, and the frozen dataclasses become Lean structures whose
propositional equality matches the dataclass field-wise `__eq__`.
-/

set_option maxRecDepth 4000

/-- The character given in Python source as a single quote (codepoint 39). -/
def quoteChar : Char := Char.ofNat 39

/-- Single-quote as a one-character string, for `f"'{v}'"`-style encodings. -/
def squote : String := String.singleton quoteChar

/-- Newline (codepoint 10).  Python's `re` dot (`.`) matches every character
except this one, so the regex-based decoders only ever see the first line. -/
def newlineChar : Char := Char.ofNat 10

/-- Tab (codepoint 9), part of the tokenizer's `SKIP` class `[ \t]+`. -/
def tabChar : Char := Char.ofNat 9

/-- The part of the input a Python regex dot can span: everything before
the first newline. -/
def firstLine (cs : List Char) : List Char := cs.takeWhile (fun c => c != newlineChar)

/-- Largest `i < n` with `P i`, scanning downward — used to embed the
backtracking of a greedy `.*` in the source's regular expressions. -/
def findMaxIdx (P : Nat → Bool) : Nat → Option Nat
  | 0 => none
  | n + 1 => if P n then some n else findMaxIdx P n

/-- `ClassName` (base.py:21-60): a frozen dataclass wrapping the dotted name.
The field is `_as_string` in the source. -/
structure ClassName where
  asString : String
deriving DecidableEq, Repr

/-- `ClassName.encode`: returns the raw dotted string. -/
def ClassName.encode (c : ClassName) : String := c.asString

/-- `ClassName.decode`: wraps the input with no validation. -/
def ClassName.decode (s : String) : ClassName := ⟨s⟩

/-- `ClassName.parts`: the dot-separated elements of the name. -/
def ClassName.parts (c : ClassName) : List String := c.asString.splitOn "."

/-- `ClassName.slashed`: `"/".join(self.parts)`.  Since the separator is the
single character `.`, joining the split with `/` replaces each `.` by `/`;
the embedding performs that replacement characterwise. -/
def slashedL (cs : List Char) : List Char :=
  cs.map (fun c => if c = '.' then '/' else c)

/-- `ClassName.slashed` at `String` level. -/
def ClassName.slashed (c : ClassName) : String := String.mk (slashedL c.asString.data)

/-- `Type` (base.py:63-303): the closed set of JVM type variants.  Named `Ty`
because `Type` is reserved in Lean.  Each Python variant is a frozen,
interned dataclass; `obj` carries a `ClassName`, `array` a nested type. -/
inductive Ty where
  | boolean
  | int
  | byte
  | char
  | long
  | float
  | double
  | ref
  | obj (name : ClassName)
  | array (contains : Ty)
deriving DecidableEq, Repr

/-- `Type.encode` per variant (base.py): single tag letters for primitives,
`"A"` for `Reference`, `"L" + slashed + ";"` for `Object`,
`"[" + contains.encode()` for `Array`. -/
def tyEncodeL : Ty → List Char
  | .boolean => ['Z']
  | .int => ['I']
  | .byte => ['B']
  | .char => ['C']
  | .long => ['J']
  | .float => ['F']
  | .double => ['D']
  | .ref => ['A']
  | .obj n => 'L' :: (slashedL n.asString.data ++ [';'])
  | .array t => '[' :: tyEncodeL t

/-- `Type.encode` at `String` level. -/
def Ty.encode (t : Ty) : String := String.mk (tyEncodeL t)

/-- The tag dispatch of `Type.decode`'s `match input[i]` (base.py:75-95):
only the seven primitive tags are recognized; there is no `L` or `A` case. -/
def primOfTag : Char → Option Ty
  | 'Z' => some .boolean
  | 'I' => some .int
  | 'B' => some .byte
  | 'C' => some .char
  | 'J' => some .long
  | 'F' => some .float
  | 'D' => some .double
  | _ => none

/-- The `for k in reversed(stack): r = k(r)` loop: wrap the base type in one
`Array` per accumulated `[`, innermost first. -/
def wrapArrays : Ty → Nat → Ty
  | t, 0 => t
  | t, k + 1 => wrapArrays (.array t) k

/-- `Type.decode` (base.py:69-105): scan leading `[` markers, dispatch on the
first non-`[` character, fail on an unknown tag (`Unknown type c`) or on
exhausted input (`Could not decode`), and return the remainder
`input[i+1:]`.  `depth` counts the `[` markers pushed so far. -/
def tyDecodeCore : List Char → Nat → Except String (Ty × List Char)
  | [], _ => .error "Could not decode"
  | c :: rest, depth =>
    if c = '[' then tyDecodeCore rest (depth + 1)
    else
      match primOfTag c with
      | some p => .ok (wrapArrays p depth, rest)
      | none => .error ("Unknown type " ++ String.singleton c)

/-- `Type.decode` at `String` level: the decoded type plus the unconsumed
suffix of the input. -/
def Ty.decode (s : String) : Except String (Ty × String) :=
  (tyDecodeCore s.data 0).map (fun tr => (tr.1, String.mk tr.2))

/-- The equality that Python evaluates on two concrete type values: every
concrete variant is a `@dataclass(frozen=True)`, whose generated `__eq__`
compares the variant and its fields (shadowing the `<=`-based
`Type.__eq__` of base.py:110, which is unreachable for dataclass
instances).  `Object` compares class names by their `_as_string` field. -/
def tyEq : Ty → Ty → Bool
  | .boolean, .boolean => true
  | .int, .int => true
  | .byte, .byte => true
  | .char, .char => true
  | .long, .long => true
  | .float, .float => true
  | .double, .double => true
  | .ref, .ref => true
  | .obj n₁, .obj n₂ => n₁.asString == n₂.asString
  | .array a, .array b => tyEq a b
  | _, _ => false

/-- Types whose encodings `Type.decode` can actually read back: built from
the seven primitive tags and `Array` (no `Object`, no `Reference`). -/
def decodableTy : Ty → Bool
  | .obj _ => false
  | .ref => false
  | .array t => decodableTy t
  | _ => true

/-- Types none of whose object class names contains a `/`; on these,
`encode` is injective (a `/` inside a dotted name collides with the
`slashed()` separator). -/
def noSlash : Ty → Bool
  | .obj n => n.asString.data.all (fun c => c != '/')
  | .array t => noSlash t
  | _ => true

/-- `ParameterType` (base.py:305-327): an ordered sequence of types
(`_elements` tuple in the source). -/
structure ParameterType where
  elements : List Ty
deriving DecidableEq, Repr

/-- `ParameterType.encode`: concatenation of the element encodings. -/
def ParameterType.encode (p : ParameterType) : String :=
  String.join (p.elements.map Ty.encode)

/-- The `while input:` loop of `ParameterType.decode`, with fuel bounding the
iteration count.  Each successful `Type.decode` consumes at least one
character (see `paramtype_decode_total`), so `input.length` fuel always
suffices and the out-of-fuel branch is unreachable. -/
def paramDecodeAux : Nat → List Char → Except String (List Ty)
  | _, [] => .ok []
  | 0, _ :: _ => .error "out of fuel"
  | fuel + 1, c :: cs =>
    match tyDecodeCore (c :: cs) 0 with
    | .error e => .error e
    | .ok (t, rest) => (paramDecodeAux fuel rest).map (fun ps => t :: ps)

/-- `ParameterType.decode` on a character list. -/
def paramDecodeCore (cs : List Char) : Except String (List Ty) :=
  paramDecodeAux cs.length cs

/-- `ParameterType.decode` (base.py:320-327): repeatedly call `Type.decode`
until the input is empty. -/
def paramDecode (s : String) : Except String ParameterType :=
  (paramDecodeCore s.data).map ParameterType.mk

/-- `MethodID` (base.py:334-363): name, parameter types, optional return. -/
structure MethodID where
  name : String
  params : ParameterType
  return_type : Option Ty
deriving DecidableEq, Repr

/-- `MethodID.encode`: `f"{name}:({params}){rt}"` with `"V"` for an absent
return type. -/
def MethodID.encode (m : MethodID) : String :=
  m.name ++ ":(" ++ m.params.encode ++ ")" ++
    (match m.return_type with
     | some t => t.encode
     | none => "V")

/-- Whether `METHOD_ID_RE`'s `\:\(` delimiter can match at offset `i`: the
input continues with `:(` and a `)` occurs somewhere after (so the
`params`/`return` groups can match). -/
def colonParenAt (l : List Char) (i : Nat) : Bool :=
  ((l.drop i).take 2 == [':', '(']) && (l.drop (i + 2)).contains ')'

/-- The match of `METHOD_ID_RE = (?P<method_name>.*)\:\((?P<params>.*)\)(?P<return>.*)`
on one line: the greedy `method_name` takes the longest prefix that still
leaves a `:(` ... `)` pair, and the greedy `params` extends to the last
`)`; `return` is the rest of the line. -/
def methodIdMatch (line : List Char) :
    Option (List Char × List Char × List Char) :=
  match findMaxIdx (colonParenAt line) line.length with
  | none => none
  | some i =>
    match findMaxIdx (fun j => (line.drop (i + 2))[j]? == some ')')
        (line.drop (i + 2)).length with
    | none => none
    | some j =>
      some (line.take i, (line.drop (i + 2)).take j, (line.drop (i + 2)).drop (j + 1))

/-- `MethodID.decode` (base.py:342-359): apply the pattern (`re.match`, so
only the first line is visible to `.*`), fail with the invalid-method-id
error if it does not match; a `"V"` return group means no return type,
any other must decode fully as a type. -/
def methodIdDecode (s : String) : Except String MethodID :=
  match methodIdMatch (firstLine s.data) with
  | none => .error "invalid method name"
  | some (n, p, r) =>
    let retE : Except String (Option Ty) :=
      if r = ['V'] then .ok none
      else
        match tyDecodeCore r 0 with
        | .ok (t, []) => .ok (some t)
        | .ok (_, _ :: _) => .error "could not decode method id, bad return type"
        | .error e => .error e
    match retE with
    | .error e => .error e
    | .ok ret =>
      match paramDecodeCore p with
      | .error e => .error e
      | .ok ps => .ok ⟨String.mk n, ⟨ps⟩, ret⟩

/-- `FieldID` (base.py:573-594): a name and a type. -/
structure FieldID where
  name : String
  type : Ty
deriving DecidableEq, Repr

/-- `FieldID.encode`: `f"{name}:{type}"`. -/
def FieldID.encode (f : FieldID) : String := f.name ++ ":" ++ f.type.encode

/-- `input.split(":", 1)`: split at the first colon; `none` exactly when the
source's `":" not in input` guard fires. -/
def splitFirstColon : List Char → Option (List Char × List Char)
  | [] => none
  | c :: cs =>
    if c = ':' then some ([], cs)
    else (splitFirstColon cs).map (fun nr => (c :: nr.1, nr.2))

/-- `FieldID.decode` (base.py:583-591): no colon fails with
invalid-field-id; the type portion must decode with empty remainder, else
the extra-characters error. -/
def fieldIdDecode (s : String) : Except String FieldID :=
  match splitFirstColon s.data with
  | none => .error ("invalid field id format: " ++ s)
  | some (n, r) =>
    match tyDecodeCore r 0 with
    | .error e => .error e
    | .ok (t, []) => .ok ⟨String.mk n, t⟩
    | .ok (_, rem) => .error ("extra characters in field type: " ++ String.mk rem)

/-- `Absolute` (base.py:373-386): a class name plus an extension (method or
field identifier). -/
structure Absolute (T : Type) where
  classname : ClassName
  extension : T
deriving DecidableEq, Repr

/-- `Absolute.encode`: `f"{classname}.{extension}"`. -/
def absoluteEncode {T : Type} (encE : T → String) (a : Absolute T) : String :=
  a.classname.encode ++ "." ++ encE a.extension

/-- The match of `ABSOLUTE_RE = (?P<class_name>.+)\.(?P<rest>.*)` on one
line: the greedy `.+` makes the split happen at the last dot, and it
requires a nonempty class-name prefix (dot index at least 1). -/
def lastDotSplit (l : List Char) : Option (List Char × List Char) :=
  match findMaxIdx (fun j => decide (1 ≤ j) && (l[j]? == some '.')) l.length with
  | none => none
  | some j => some (l.take j, l.drop (j + 1))

/-- `Absolute.decode` (base.py:378-383): split at the last dot of the first
line (no backtracking to earlier dots), then run the element decoder on
the suffix; no dot fails with the invalid-absolute-name error. -/
def absoluteDecode {T : Type} (decE : String → Except String T) (s : String) :
    Except String (Absolute T) :=
  match lastDotSplit (firstLine s.data) with
  | none => .error "invalid absolute method name"
  | some (c, r) =>
    (decE (String.mk r)).map (fun e => ⟨ClassName.decode (String.mk c), e⟩)

/-- Payload of a `Value` (base.py:389-452): the Python `Any` field only ever
holds a bool, an int, a one-character string, a string, or a homogeneous
tuple of ints or of chars (the shapes §3 of the spec enumerates). -/
inductive PyVal where
  | b (x : Bool)
  | i (n : Int)
  | c (ch : Char)
  | s (str : String)
  | ints (xs : List Int)
  | chars (xs : List Char)
deriving DecidableEq, Repr

/-- `Value`: a type together with its payload. -/
structure Value where
  type : Ty
  value : PyVal
deriving DecidableEq, Repr

/-- `Value.int` helper. -/
def Value.int (n : Int) : Value := ⟨.int, .i n⟩

/-- `Value.boolean` helper. -/
def Value.boolean (x : Bool) : Value := ⟨.boolean, .b x⟩

/-- `Value.char` helper. -/
def Value.char (c : Char) : Value := ⟨.char, .c c⟩

/-- Python `str()` of an int: decimal digits with a leading `-` when
negative. -/
def intStr (n : Int) : String := toString n

/-- Python `str()` of a tuple rendered from already-stringified elements
(`("x",)` keeps the trailing comma). -/
def pyTupleStr : List String → String
  | [x] => "(" ++ x ++ ",)"
  | xs => "(" ++ String.intercalate ", " xs ++ ")"

/-- Python `str()` of a payload. -/
def pyStr : PyVal → String
  | .b true => "True"
  | .b false => "False"
  | .i n => intStr n
  | .c ch => String.singleton ch
  | .s str => str
  | .ints xs => pyTupleStr (xs.map intStr)
  | .chars xs => pyTupleStr (xs.map (fun c => squote ++ String.singleton c ++ squote))

/-- Python truthiness of a payload, used by `Value.encode`'s
`"true" if self.value else "false"`. -/
def pyTruthy : PyVal → Bool
  | .b x => x
  | .i n => n != 0
  | .c _ => true
  | .s str => str != ""
  | .ints xs => !xs.isEmpty
  | .chars xs => !xs.isEmpty

/-- `Value.encode` (base.py:408-427): booleans by truthiness, ints by
`str()`, chars single-quoted, int/char arrays as `[I:...]` / `[C:...]`
with `", "`-joined elements; other array element types raise
(`NotImplemented`), and the final `return self.value` fall-through is a
string only for string payloads. -/
def valueEncode (v : Value) : Except String String :=
  match v.type with
  | .boolean => .ok (if pyTruthy v.value then "true" else "false")
  | .int => .ok (pyStr v.value)
  | .char => .ok (squote ++ pyStr v.value ++ squote)
  | .array .int =>
    match v.value with
    | .ints xs => .ok ("[I:" ++ String.intercalate ", " (xs.map intStr) ++ "]")
    | _ => .error "unsupported value shape"
  | .array .char =>
    match v.value with
    | .chars xs =>
      .ok ("[C:" ++
        String.intercalate ", " (xs.map (fun a => squote ++ String.singleton a ++ squote)) ++ "]")
    | _ => .error "unsupported value shape"
  | .array _ => .error "NotImplemented"
  | _ =>
    match v.value with
    | .s str => .ok str
    | _ => .error "unsupported value shape"

/-- Token kinds of `ValueParser.tokenize` (base.py:468-485); `SKIP` is
discarded during tokenization and has no kind here. -/
inductive TokKind where
  | openArray
  | closeArray
  | int
  | bool
  | char
  | comma
deriving DecidableEq, Repr

/-- A token: kind plus matched text. -/
structure Token where
  kind : TokKind
  value : List Char
deriving DecidableEq, Repr

/-- `OPEN_ARRAY  = \[[IC]:`. -/
def matchOpenArray : List Char → Option (Token × List Char)
  | '[' :: k :: ':' :: rest =>
    if k = 'I' ∨ k = 'C' then some (⟨.openArray, ['[', k, ':']⟩, rest) else none
  | _ => none

/-- `CLOSE_ARRAY = \]`. -/
def matchCloseArray : List Char → Option (Token × List Char)
  | ']' :: rest => some (⟨.closeArray, [']']⟩, rest)
  | _ => none

/-- `INT = -?\d+` (greedy digits). -/
def matchInt (cs : List Char) : Option (Token × List Char) :=
  match cs with
  | '-' :: rest =>
    let ds := rest.takeWhile Char.isDigit
    if ds.isEmpty then none
    else some (⟨.int, '-' :: ds⟩, rest.drop ds.length)
  | _ =>
    let ds := cs.takeWhile Char.isDigit
    if ds.isEmpty then none
    else some (⟨.int, ds⟩, cs.drop ds.length)

/-- `BOOL = true|false` (alternation tries `true` first). -/
def matchBool (cs : List Char) : Option (Token × List Char) :=
  if cs.take 4 = "true".data then some (⟨.bool, "true".data⟩, cs.drop 4)
  else if cs.take 5 = "false".data then some (⟨.bool, "false".data⟩, cs.drop 5)
  else none

/-- `CHAR = '[^']'`: a quote, any single non-quote character, a quote. -/
def matchCharTok (cs : List Char) : Option (Token × List Char) :=
  match cs with
  | a :: b :: c :: rest =>
    if a = quoteChar ∧ c = quoteChar ∧ b ≠ quoteChar then
      some (⟨.char, [a, b, c]⟩, rest)
    else none
  | _ => none

/-- `COMMA = ,`. -/
def matchComma : List Char → Option (Token × List Char)
  | ',' :: rest => some (⟨.comma, [',']⟩, rest)
  | _ => none

/-- One attempt of the alternation `OPEN_ARRAY|CLOSE_ARRAY|INT|BOOL|CHAR|COMMA`
at the current position. -/
def matchToken (cs : List Char) : Option (Token × List Char) :=
  (matchOpenArray cs).orElse (fun _ =>
  (matchCloseArray cs).orElse (fun _ =>
  (matchInt cs).orElse (fun _ =>
  (matchBool cs).orElse (fun _ =>
  (matchCharTok cs).orElse (fun _ =>
  matchComma cs)))))

/-- `SKIP = [ \t]+` (greedy whitespace, dropped). -/
def matchSkip (cs : List Char) : Option (List Char) :=
  let ws := cs.takeWhile (fun c => c = ' ' ∨ c = tabChar)
  if ws.isEmpty then none else some (cs.drop ws.length)

/-- `ValueParser.tokenize` via `re.finditer`: scan left to right; at each
position emit the first matching alternative, drop `SKIP` matches, and —
crucially — when nothing matches, `finditer` silently advances one
character (there is no catch-all error rule).  Every step consumes at
least one character, so `cs.length` fuel always suffices. -/
def tokenizeAux : Nat → List Char → List Token
  | 0, _ => []
  | _, [] => []
  | fuel + 1, c :: cs =>
    match matchToken (c :: cs) with
    | some (t, rest) => t :: tokenizeAux fuel rest
    | none =>
      match matchSkip (c :: cs) with
      | some rest => tokenizeAux fuel rest
      | none => tokenizeAux fuel cs

/-- `ValueParser.tokenize` on a character list. -/
def tokenize (cs : List Char) : List Token := tokenizeAux cs.length cs

/-- `expect(kind)` (base.py:500-507): consume the head token if its kind
matches, else raise the `Expected ...` error. -/
def expectTok (k : TokKind) : List Token → Except String (Token × List Token)
  | [] => .error "Expected token but got None"
  | t :: ts => if t.kind = k then .ok (t, ts) else .error "Expected token of other kind"

/-- `parse_int`: `int(tok.value)`. -/
def pyIntOfChars (cs : List Char) : Int :=
  match cs with
  | '-' :: ds => -(ds.foldl (fun a c => a * 10 + (c.toNat - 48)) 0 : Nat)
  | ds => (ds.foldl (fun a c => a * 10 + (c.toNat - 48)) 0 : Nat)

/-- `parse_int` (base.py:527-529). -/
def parseIntTok (ts : List Token) : Except String (Int × List Token) :=
  (expectTok .int ts).map (fun tr => (pyIntOfChars tr.1.value, tr.2))

/-- `parse_bool` (base.py:531-533): `tok.value == "true"`. -/
def parseBoolTok (ts : List Token) : Except String (Bool × List Token) :=
  (expectTok .bool ts).map (fun tr => (tr.1.value == "true".data, tr.2))

/-- `parse_char` (base.py:535-537): `tok.value[1]`, the quoted character. -/
def parseCharTok (ts : List Token) : Except String (Char × List Token) :=
  match expectTok .char ts with
  | .error e => .error e
  | .ok (t, rest) =>
    match t.value[1]? with
    | some c => .ok (c, rest)
    | none => .error "malformed char token"

/-- The `while self.head and self.head.kind == "COMMA"` loop of
`parse_comma_seperated_values`.  Every iteration consumes the comma plus
at least one token inside `p`, so the initial token count bounds the
iterations and the out-of-fuel branch is unreachable. -/
def parseCSVLoop {α : Type} (p : List Token → Except String (α × List Token)) :
    Nat → List α → List Token → Except String (List α × List Token)
  | _, acc, [] => .ok (acc.reverse, [])
  | 0, _, _ :: _ => .error "out of fuel"
  | fuel + 1, acc, t :: ts =>
    if t.kind = .comma then
      match p ts with
      | .error e => .error e
      | .ok (v, rest) => parseCSVLoop p fuel (v :: acc) rest
    else .ok (acc.reverse, t :: ts)

/-- `parse_comma_seperated_values` (base.py:556-570): empty stream (or an
immediate `end_by` token) yields `[]`; otherwise one element, then more
after each comma. -/
def parseCSV {α : Type} (p : List Token → Except String (α × List Token))
    (endBy : Option TokKind) (ts : List Token) :
    Except String (List α × List Token) :=
  match ts with
  | [] => .ok ([], [])
  | t :: _ =>
    if endBy = some t.kind then .ok ([], ts)
    else
      match p ts with
      | .error e => .error e
      | .ok (v, rest) => parseCSVLoop p rest.length [v] rest

/-- `parse_array` (base.py:539-554): the opener fixes the element type and
parser, elements run to the `CLOSE_ARRAY` terminator, the closer is
consumed, and the payload is the tuple of elements. -/
def parseArray (ts : List Token) : Except String (Value × List Token) :=
  match expectTok .openArray ts with
  | .error e => .error e
  | .ok (key, r) =>
    if key.value = "[I:".data then
      match parseCSV parseIntTok (some .closeArray) r with
      | .error e => .error e
      | .ok (xs, r1) =>
        match expectTok .closeArray r1 with
        | .error e => .error e
        | .ok (_, r2) => .ok (⟨.array .int, .ints xs⟩, r2)
    else if key.value = "[C:".data then
      match parseCSV parseCharTok (some .closeArray) r with
      | .error e => .error e
      | .ok (xs, r1) =>
        match expectTok .closeArray r1 with
        | .error e => .error e
        | .ok (_, r2) => .ok (⟨.array .char, .chars xs⟩, r2)
    else .error "Expected int or char array"

/-- `parse_value` (base.py:514-525): dispatch on the head token's kind; any
other kind (comma, closer) raises. -/
def parseValue (ts : List Token) : Except String (Value × List Token) :=
  match ts with
  | [] => .error "Expected token but got None"
  | t :: _ =>
    match t.kind with
    | .int => (parseIntTok ts).map (fun nr => (Value.int nr.1, nr.2))
    | .char => (parseCharTok ts).map (fun cr => (Value.char cr.1, cr.2))
    | .bool => (parseBoolTok ts).map (fun br => (Value.boolean br.1, br.2))
    | .openArray => parseArray ts
    | _ => .error "Expected char"

/-- `Value.decode` (base.py:401-406, identical to `decode_many`): tokenize,
parse a comma-separated value list with `parse_value`, require EOF. -/
def valueDecode (s : String) : Except String (List Value) :=
  match parseCSV parseValue none (tokenize s.data) with
  | .error e => .error e
  | .ok (vs, []) => .ok vs
  | .ok (_, _ :: _) => .error "Expected end of file"

/-- Decidable equality of decoder results, so concrete runs can be compared
by `decide`. -/
instance {ε α : Type} [DecidableEq ε] [DecidableEq α] : DecidableEq (Except ε α) :=
  fun x y =>
    match x, y with
    | .error a, .error b =>
      if h : a = b then .isTrue (by rw [h]) else .isFalse (fun hh => h (by injection hh))
    | .error _, .ok _ => .isFalse (fun hh => Except.noConfusion hh)
    | .ok _, .error _ => .isFalse (fun hh => Except.noConfusion hh)
    | .ok a, .ok b =>
      if h : a = b then .isTrue (by rw [h]) else .isFalse (fun hh => h (by injection hh))

/-! ## Helper lemmas -/

@[simp] theorem ClassName.asString_inj {a b : ClassName} :
    a.asString = b.asString ↔ a = b := by
  cases a; cases b; simp

theorem findMaxIdx_eq_some {P : Nat → Bool} :
    ∀ {n i : Nat}, findMaxIdx P n = some i →
      P i = true ∧ i < n ∧ ∀ j, i < j → j < n → P j = false := by
  intro n
  induction n with
  | zero => intro i h; simp [findMaxIdx] at h
  | succ n ih =>
    intro i h
    cases hP : P n with
    | true =>
      simp [findMaxIdx, hP] at h
      subst h
      exact ⟨hP, Nat.lt_succ_self _, fun j hj hjn => by omega⟩
    | false =>
      simp [findMaxIdx, hP] at h
      obtain ⟨h1, h2, h3⟩ := ih h
      refine ⟨h1, Nat.lt_succ_of_lt h2, fun j hj hjn => ?_⟩
      rcases Nat.lt_succ_iff_lt_or_eq.mp hjn with h' | h'
      · exact h3 j hj h'
      · subst h'; exact hP

theorem findMaxIdx_eq_none {P : Nat → Bool} :
    ∀ {n : Nat}, findMaxIdx P n = none → ∀ j, j < n → P j = false := by
  intro n
  induction n with
  | zero => intro _ j hj; omega
  | succ n ih =>
    intro h j hj
    cases hP : P n with
    | true => simp [findMaxIdx, hP] at h
    | false =>
      simp [findMaxIdx, hP] at h
      rcases Nat.lt_succ_iff_lt_or_eq.mp hj with h' | h'
      · exact ih h j h'
      · subst h'; exact hP

theorem findMaxIdx_eq_some_of {P : Nat → Bool} :
    ∀ {n i : Nat}, P i = true → i < n → (∀ j, i < j → j < n → P j = false) →
      findMaxIdx P n = some i := by
  intro n
  induction n with
  | zero => intro i _ h _; omega
  | succ n ih =>
    intro i hP hlt hmax
    rcases Nat.lt_succ_iff_lt_or_eq.mp hlt with h' | h'
    · have hPn : P n = false := hmax n h' (Nat.lt_succ_self n)
      simp [findMaxIdx, hPn]
      exact ih hP h' (fun j a b => hmax j a (Nat.lt_succ_of_lt b))
    · subst h'; simp [findMaxIdx, hP]

theorem firstLine_of_not_mem : ∀ {l : List Char}, newlineChar ∉ l → firstLine l = l := by
  intro l
  induction l with
  | nil => intro _; rfl
  | cons c cs ih =>
    intro h
    have hc : (c != newlineChar) = true := by
      simp only [bne_iff_ne, ne_eq]
      intro he; exact h (he ▸ List.mem_cons_self c cs)
    have hcs := ih (fun hm => h (List.mem_cons_of_mem _ hm))
    simp only [firstLine, List.takeWhile_cons, hc] at *
    simp [hcs]

theorem mem_firstLine : ∀ {c : Char} {l : List Char}, c ∈ firstLine l → c ∈ l := by
  intro c l
  induction l with
  | nil => intro h; exact h
  | cons a cs ih =>
    intro h
    simp only [firstLine, List.takeWhile_cons] at h
    by_cases ha : (a != newlineChar) = true
    · rw [if_pos ha] at h
      rcases List.mem_cons.mp h with h' | h'
      · exact h' ▸ List.mem_cons_self a cs
      · exact List.mem_cons_of_mem _ (ih h')
    · rw [if_neg ha] at h; cases h

theorem wrapArrays_succ : ∀ (k : Nat) (t : Ty),
    wrapArrays t (k + 1) = .array (wrapArrays t k) := by
  intro k
  induction k with
  | zero => intro t; rfl
  | succ k ih =>
    intro t
    show wrapArrays (.array t) (k + 1) = _
    rw [ih]
    rfl

theorem tyDecodeCore_progress :
    ∀ (cs : List Char) (k : Nat) (t : Ty) (rest : List Char),
      tyDecodeCore cs k = .ok (t, rest) → rest.length < cs.length := by
  intro cs
  induction cs with
  | nil => intro k t rest h; simp [tyDecodeCore] at h
  | cons c cs ih =>
    intro k t rest h
    by_cases hc : c = '['
    · rw [tyDecodeCore, if_pos hc] at h
      exact Nat.lt_trans (ih _ _ _ h) (Nat.lt_succ_self _)
    · rw [tyDecodeCore, if_neg hc] at h
      cases hp : primOfTag c with
      | some p =>
        rw [hp] at h
        simp at h
        rw [← h.2]
        exact Nat.lt_succ_self _
      | none => rw [hp] at h; cases h

theorem tyDecodeCore_encodeL :
    ∀ (t : Ty), decodableTy t = true →
      ∀ (r : List Char) (k : Nat),
        tyDecodeCore (tyEncodeL t ++ r) k = .ok (wrapArrays t k, r) := by
  intro t
  induction t with
  | boolean => intro _ r k; rfl
  | int => intro _ r k; rfl
  | byte => intro _ r k; rfl
  | char => intro _ r k; rfl
  | long => intro _ r k; rfl
  | float => intro _ r k; rfl
  | double => intro _ r k; rfl
  | ref => intro h; simp [decodableTy] at h
  | obj n => intro h; simp [decodableTy] at h
  | array c ih =>
    intro h r k
    have hc : decodableTy c = true := by simpa [decodableTy] using h
    show tyDecodeCore ('[' :: (tyEncodeL c ++ r)) k = _
    rw [tyDecodeCore, if_pos rfl]
    exact ih hc r (k + 1)

theorem tyDecodeCore_succ :
    ∀ (cs : List Char) (k : Nat),
      tyDecodeCore cs (k + 1) =
        (tyDecodeCore cs k).map (fun tr => (Ty.array tr.1, tr.2)) := by
  intro cs
  induction cs with
  | nil => intro k; rfl
  | cons c cs ih =>
    intro k
    by_cases hc : c = '['
    · rw [tyDecodeCore, if_pos hc, tyDecodeCore, if_pos hc]
      exact ih (k + 1)
    · rw [tyDecodeCore, if_neg hc, tyDecodeCore, if_neg hc]
      cases hp : primOfTag c with
      | some p => simp [Except.map, wrapArrays_succ]
      | none => simp [Except.map]

theorem tyEq_iff : ∀ (t₁ t₂ : Ty), tyEq t₁ t₂ = true ↔ t₁ = t₂ := by
  intro t₁
  induction t₁ <;> intro t₂ <;> cases t₂ <;> simp_all [tyEq]

theorem slashedL_inj :
    ∀ (l₁ l₂ : List Char),
      l₁.all (fun c => c != '/') = true → l₂.all (fun c => c != '/') = true →
      slashedL l₁ = slashedL l₂ → l₁ = l₂ := by
  intro l₁
  induction l₁ with
  | nil =>
    intro l₂ _ _ h
    cases l₂ with
    | nil => rfl
    | cons b m => simp [slashedL] at h
  | cons a l ih =>
    intro l₂ h₁ h₂ h
    cases l₂ with
    | nil => simp [slashedL] at h
    | cons b m =>
      simp only [slashedL, List.map_cons, List.cons.injEq] at h
      simp only [List.all_cons, Bool.and_eq_true, bne_iff_ne, ne_eq] at h₁ h₂
      have hab : a = b := by
        by_cases ha : a = '.'
        · by_cases hb : b = '.'
          · rw [ha, hb]
          · rw [if_pos ha, if_neg hb] at h
            exact absurd h.1.symm h₂.1
        · by_cases hb : b = '.'
          · rw [if_neg ha, if_pos hb] at h
            exact absurd h.1 h₁.1
          · rw [if_neg ha, if_neg hb] at h
            exact h.1
      rw [hab, ih m (by simpa using h₁.2) (by simpa using h₂.2) h.2]

theorem tyEncodeL_inj :
    ∀ (t₁ : Ty), noSlash t₁ = true → ∀ (t₂ : Ty), noSlash t₂ = true →
      tyEncodeL t₁ = tyEncodeL t₂ → t₁ = t₂ := by
  intro t₁
  induction t₁ with
  | obj n =>
    intro h₁ t₂ h₂ h
    cases t₂ <;>
      first
      | (injection h with h1 h2; exact absurd h1 (by decide))
      | (injection h with h1 h2
         rename_i m
         have h3 : slashedL n.asString.data = slashedL m.asString.data :=
           List.append_cancel_right h2
         have h4 := slashedL_inj _ _ (by simpa [noSlash] using h₁)
           (by simpa [noSlash] using h₂) h3
         have h5 : n = m := by
           cases n; cases m
           simpa using congrArg String.mk h4
         rw [h5])
  | array c ih =>
    intro h₁ t₂ h₂ h
    cases t₂ <;>
      first
      | (injection h with h1 h2; exact absurd h1 (by decide))
      | (injection h with h1 h2
         rename_i d
         rw [ih (by simpa [noSlash] using h₁) d (by simpa [noSlash] using h₂) h2])
  | boolean =>
    intro _ t₂ _ h
    cases t₂ <;> first | rfl | (injection h with h1 h2; exact absurd h1 (by decide))
  | int =>
    intro _ t₂ _ h
    cases t₂ <;> first | rfl | (injection h with h1 h2; exact absurd h1 (by decide))
  | byte =>
    intro _ t₂ _ h
    cases t₂ <;> first | rfl | (injection h with h1 h2; exact absurd h1 (by decide))
  | char =>
    intro _ t₂ _ h
    cases t₂ <;> first | rfl | (injection h with h1 h2; exact absurd h1 (by decide))
  | long =>
    intro _ t₂ _ h
    cases t₂ <;> first | rfl | (injection h with h1 h2; exact absurd h1 (by decide))
  | float =>
    intro _ t₂ _ h
    cases t₂ <;> first | rfl | (injection h with h1 h2; exact absurd h1 (by decide))
  | double =>
    intro _ t₂ _ h
    cases t₂ <;> first | rfl | (injection h with h1 h2; exact absurd h1 (by decide))
  | ref =>
    intro _ t₂ _ h
    cases t₂ <;> first | rfl | (injection h with h1 h2; exact absurd h1 (by decide))

theorem paramDecodeAux_fuel_irrel :
    ∀ (f₁ : Nat), ∀ (f₂ : Nat) (cs : List Char),
      cs.length ≤ f₁ → cs.length ≤ f₂ →
      paramDecodeAux f₁ cs = paramDecodeAux f₂ cs := by
  intro f₁
  induction f₁ with
  | zero =>
    intro f₂ cs h₁ _
    have : cs = [] := List.length_eq_zero.mp (Nat.le_zero.mp h₁)
    subst this
    cases f₂ <;> rfl
  | succ f₁ ih =>
    intro f₂ cs h₁ h₂
    cases cs with
    | nil => cases f₂ <;> rfl
    | cons c cs' =>
      cases f₂ with
      | zero => simp at h₂
      | succ f₂' =>
        cases hty : tyDecodeCore (c :: cs') 0 with
        | error e => simp [paramDecodeAux, hty]
        | ok tr =>
          obtain ⟨t, rest⟩ := tr
          have hp := tyDecodeCore_progress _ _ _ _ hty
          simp only [List.length_cons] at hp h₁ h₂
          simp only [paramDecodeAux, hty]
          rw [ih f₂' rest (by omega) (by omega)]

theorem paramDecodeAux_fuel :
    ∀ (f : Nat) (cs : List Char), cs.length ≤ f →
      paramDecodeAux f cs = paramDecodeCore cs :=
  fun f cs h => paramDecodeAux_fuel_irrel f cs.length cs h (Nat.le_refl _)

theorem splitFirstColon_append :
    ∀ (n r : List Char), (':' : Char) ∉ n →
      splitFirstColon (n ++ ':' :: r) = some (n, r) := by
  intro n
  induction n with
  | nil => intro r _; simp [splitFirstColon]
  | cons c cs ih =>
    intro r h
    have hc : ¬(c = ':') := fun he => h (he ▸ List.mem_cons_self c cs)
    have := ih r (fun hm => h (List.mem_cons_of_mem _ hm))
    simp [splitFirstColon, hc, this]

theorem splitFirstColon_none :
    ∀ (l : List Char), (':' : Char) ∉ l → splitFirstColon l = none := by
  intro l
  induction l with
  | nil => intro _; rfl
  | cons c cs ih =>
    intro h
    have hc : ¬(c = ':') := fun he => h (he ▸ List.mem_cons_self c cs)
    have := ih (fun hm => h (List.mem_cons_of_mem _ hm))
    simp [splitFirstColon, hc, this]

theorem colonParenAt_split (n' p' r' : List Char) :
    colonParenAt (n' ++ ':' :: '(' :: (p' ++ ')' :: r')) n'.length = true := by
  have h1 : (n' ++ ':' :: '(' :: (p' ++ ')' :: r')).drop n'.length =
      ':' :: '(' :: (p' ++ ')' :: r') := List.drop_left' rfl
  have h2 : (n' ++ ':' :: '(' :: (p' ++ ')' :: r')).drop (n'.length + 2) =
      p' ++ ')' :: r' := by
    rw [← List.drop_drop, h1]
    rfl
  have hc : (p' ++ ')' :: r').contains ')' = true := List.elem_iff.mpr (by simp)
  rw [colonParenAt, h1, h2, hc]
  rfl

theorem split_length_lt (l n' p' r' : List Char)
    (heq : l = n' ++ ':' :: '(' :: (p' ++ ')' :: r')) : n'.length < l.length := by
  subst heq
  simp only [List.length_append, List.length_cons]
  omega

theorem methodIdMatch_eq_some :
    ∀ {line n p r : List Char}, methodIdMatch line = some (n, p, r) →
      line = n ++ ':' :: '(' :: (p ++ ')' :: r) ∧
      r.contains ')' = false ∧
      (∀ n' p' r', line = n' ++ ':' :: '(' :: (p' ++ ')' :: r') →
        n'.length ≤ n.length) := by
  intro line n p r h
  unfold methodIdMatch at h
  split at h
  · cases h
  · rename_i i ho
    split at h
    · cases h
    · rename_i j hj
      obtain ⟨hPi, hilt, hmax⟩ := findMaxIdx_eq_some ho
      rw [colonParenAt, Bool.and_eq_true] at hPi
      obtain ⟨h2tk, hcnt⟩ := hPi
      rw [beq_iff_eq] at h2tk
      obtain ⟨hPj, hjlt, hjmax⟩ := findMaxIdx_eq_some hj
      rw [beq_iff_eq] at hPj
      injection h with h'
      injection h' with h1 h23
      injection h23 with h2 h3
      subst h1; subst h2; subst h3
      have hrj : (line.drop (i + 2))[j] = ')' := by
        rw [List.getElem?_eq_getElem hjlt] at hPj
        injection hPj
      have hdi : line.drop i = ':' :: '(' :: (line.drop (i + 2)) := by
        have hta := List.take_append_drop 2 (line.drop i)
        rw [h2tk, List.drop_drop] at hta
        exact hta.symm
      have hdj : line.drop (i + 2) =
          (line.drop (i + 2)).take j ++ ')' :: (line.drop (i + 2)).drop (j + 1) := by
        have hta := List.take_append_drop j (line.drop (i + 2))
        have hcd := List.getElem_cons_drop (line.drop (i + 2)) j hjlt
        rw [hrj] at hcd
        rw [← hcd] at hta
        exact hta.symm
      refine ⟨?_, ?_, ?_⟩
      · calc line = line.take i ++ line.drop i := (List.take_append_drop i line).symm
          _ = line.take i ++ (':' :: '(' :: (line.drop (i + 2))) := by rw [hdi]
          _ = line.take i ++ (':' :: '(' ::
              ((line.drop (i + 2)).take j ++ ')' :: (line.drop (i + 2)).drop (j + 1))) := by
            rw [← hdj]
      · cases hc : ((line.drop (i + 2)).drop (j + 1)).contains ')' with
        | false => rfl
        | true =>
          exfalso
          obtain ⟨k, hk, hke⟩ := List.mem_iff_getElem.mp (List.elem_iff.mp hc)
          rw [List.getElem_drop] at hke
          have hlt2 : j + 1 + k < (line.drop (i + 2)).length := by
            rw [List.length_drop] at hk
            omega
          have hfl := hjmax (j + 1 + k) (by omega) hlt2
          rw [List.getElem?_eq_getElem hlt2, hke] at hfl
          simp at hfl
      · intro n' p' r' heq
        by_contra hgt
        push_neg at hgt
        have hnlen : (line.take i).length = i := by
          rw [List.length_take]
          omega
        have hP' := colonParenAt_split n' p' r'
        rw [← heq] at hP'
        have hlt' : n'.length < line.length := split_length_lt line n' p' r' heq
        have hfl := hmax n'.length (by omega) hlt'
        rw [hP'] at hfl
        cases hfl

theorem methodIdMatch_eq_none :
    ∀ {line : List Char}, methodIdMatch line = none →
      ∀ n p r, line ≠ n ++ ':' :: '(' :: (p ++ ')' :: r) := by
  intro line h n p r heq
  unfold methodIdMatch at h
  split at h
  · rename_i ho
    have hP := colonParenAt_split n p r
    rw [← heq] at hP
    have hlt : n.length < line.length := split_length_lt line n p r heq
    rw [findMaxIdx_eq_none ho n.length hlt] at hP
    cases hP
  · rename_i i ho
    split at h
    · rename_i hj
      obtain ⟨hPi, hilt, _⟩ := findMaxIdx_eq_some ho
      rw [colonParenAt, Bool.and_eq_true] at hPi
      obtain ⟨_, hcnt⟩ := hPi
      obtain ⟨k, hk, hke⟩ := List.mem_iff_getElem.mp (List.elem_iff.mp hcnt)
      have hPk : ((line.drop (i + 2))[k]? == some ')') = true := by
        rw [List.getElem?_eq_getElem hk, hke]
        simp
      rw [findMaxIdx_eq_none hj k hk] at hPk
      cases hPk
    · cases h

theorem lastDotSplit_concat :
    ∀ (cn e : List Char), cn ≠ [] → ('.' : Char) ∉ e →
      lastDotSplit (cn ++ '.' :: e) = some (cn, e) := by
  intro cn e hne hnd
  have hlen : 1 ≤ cn.length := List.length_pos.mpr hne
  have hP : (decide (1 ≤ cn.length) && ((cn ++ '.' :: e)[cn.length]? == some '.')) = true := by
    have h2 : (cn ++ '.' :: e)[cn.length]? = some '.' := by
      rw [List.getElem?_append_right (Nat.le_refl _)]
      simp
    rw [h2]
    simp [hlen]
  have hmax : ∀ j, cn.length < j → j < (cn ++ '.' :: e).length →
      (decide (1 ≤ j) && ((cn ++ '.' :: e)[j]? == some '.')) = false := by
    intro j hj _
    have hge : cn.length ≤ j := Nat.le_of_lt hj
    have h2 : (cn ++ '.' :: e)[j]? = ('.' :: e)[j - cn.length]? :=
      List.getElem?_append_right hge
    obtain ⟨m, hm⟩ : ∃ m, j - cn.length = m + 1 := ⟨j - cn.length - 1, by omega⟩
    rw [hm, List.getElem?_cons_succ] at h2
    cases he : e[m]? with
    | none => rw [h2, he]; simp
    | some c =>
      have hcm : c ∈ e := List.getElem?_mem he
      have hcne : ¬(c = '.') := fun x => hnd (x ▸ hcm)
      rw [h2, he]
      simp [hcne]
  have hl : cn.length < (cn ++ '.' :: e).length := by
    simp only [List.length_append, List.length_cons]
    omega
  have hd : (cn ++ '.' :: e).drop (cn.length + 1) = e := by
    rw [← List.drop_drop, List.drop_left' rfl]
    rfl
  unfold lastDotSplit
  rw [findMaxIdx_eq_some_of hP hl hmax]
  show some ((cn ++ '.' :: e).take cn.length, (cn ++ '.' :: e).drop (cn.length + 1)) =
    some (cn, e)
  rw [List.take_left' rfl, hd]

theorem lastDotSplit_no_dot :
    ∀ {l : List Char}, ('.' : Char) ∉ l → lastDotSplit l = none := by
  intro l h
  unfold lastDotSplit
  cases ho : findMaxIdx (fun j => decide (1 ≤ j) && (l[j]? == some '.')) l.length with
  | none => rfl
  | some j =>
    exfalso
    obtain ⟨hPj, _, _⟩ := findMaxIdx_eq_some ho
    rw [Bool.and_eq_true, beq_iff_eq] at hPj
    exact h (List.getElem?_mem hPj.2)

theorem fieldIdDecode_split (n r : List Char) (hn : (':' : Char) ∉ n) :
    fieldIdDecode (String.mk (n ++ ':' :: r)) =
      (match tyDecodeCore r 0 with
       | .error e => .error e
       | .ok (t, []) => .ok ⟨String.mk n, t⟩
       | .ok (_, rem) =>
         .error ("extra characters in field type: " ++ String.mk rem) :
        Except String FieldID) := by
  unfold fieldIdDecode
  rw [show (String.mk (n ++ ':' :: r)).data = n ++ ':' :: r from rfl,
    splitFirstColon_append n r hn]

/-! ## Claim theorems -/

/-- C1 (counterexample): the round-trip `decode(encode(t)) = (t, "")` fails
for the `Object` variant, because `Type.decode` has no `L` case: encoding
`Object(foo.Bar)` gives `"Lfoo/Bar;"`, which decode rejects with the
unknown-type error instead of returning the value back. -/
theorem type_roundtrip_object_fails :
    Ty.decode (Ty.encode (Ty.obj ⟨"foo.Bar"⟩)) = .error "Unknown type L" ∧
    Ty.decode (Ty.encode (Ty.obj ⟨"foo.Bar"⟩)) ≠ .ok (Ty.obj ⟨"foo.Bar"⟩, "") :=
  ⟨by decide, by decide⟩

/-- C1 (amended): `Type.encode` is total, and `Type.decode` is its left
inverse with empty remainder for every type built from the seven primitive
singletons and `Array` nesting — the types whose tags decode recognizes;
`Object` and `Reference` values are excluded. -/
theorem type_roundtrip_decodable :
    ∀ t : Ty, decodableTy t = true → Ty.decode (Ty.encode t) = .ok (t, "") := by
  intro t h
  unfold Ty.decode Ty.encode
  rw [show (String.mk (tyEncodeL t)).data = tyEncodeL t ++ [] from by simp]
  rw [tyDecodeCore_encodeL t h [] 0]
  rfl

/-- C1 (witness): the amended round-trip at the concrete type `Array(Int)`. -/
theorem type_roundtrip_decodable_witness :
    Ty.decode (Ty.encode (Ty.array Ty.int)) = .ok (Ty.array Ty.int, "") :=
  type_roundtrip_decodable (Ty.array Ty.int) (by decide)

/-- C2 (counterexample): a leading `L` does not begin a named-object
reference: `Type.decode("Lfoo/Bar;")` raises the unknown-type error; no
`Object` value is produced. -/
theorem type_decode_L_fails :
    Ty.decode "Lfoo/Bar;" = .error "Unknown type L" ∧
    Ty.decode "Lfoo/Bar;" ≠ .ok (Ty.obj ⟨"foo.Bar"⟩, "") ∧
    Ty.decode "Lfoo/Bar;" ≠ .ok (Ty.obj ⟨"foo/Bar"⟩, "") :=
  ⟨by decide, by decide, by decide⟩

/-- C2 (amended): `Type.decode` reads a single leading tag character, the
seven primitive tags `Z I B C J F D` yielding their singletons with the
unconsumed suffix returned; a leading `L` fails with the unknown-type
error (object references are not decoded); each leading `[` wraps the
decoded base in one `Array` layer, innermost first, so `"[[I"` decodes to
`Array(Array(Int))`. -/
theorem type_decode_tags_arrays :
    (∀ r : List Char, tyDecodeCore ('Z' :: r) 0 = .ok (.boolean, r)) ∧
    (∀ r : List Char, tyDecodeCore ('I' :: r) 0 = .ok (.int, r)) ∧
    (∀ r : List Char, tyDecodeCore ('B' :: r) 0 = .ok (.byte, r)) ∧
    (∀ r : List Char, tyDecodeCore ('C' :: r) 0 = .ok (.char, r)) ∧
    (∀ r : List Char, tyDecodeCore ('J' :: r) 0 = .ok (.long, r)) ∧
    (∀ r : List Char, tyDecodeCore ('F' :: r) 0 = .ok (.float, r)) ∧
    (∀ r : List Char, tyDecodeCore ('D' :: r) 0 = .ok (.double, r)) ∧
    (∀ r : List Char, tyDecodeCore ('L' :: r) 0 = .error "Unknown type L") ∧
    (∀ cs : List Char, tyDecodeCore ('[' :: cs) 0 =
      (tyDecodeCore cs 0).map (fun tr => (Ty.array tr.1, tr.2))) ∧
    Ty.decode "[[I" = .ok (.array (.array .int), "") := by
  refine ⟨fun r => rfl, fun r => rfl, fun r => rfl, fun r => rfl, fun r => rfl,
    fun r => rfl, fun r => rfl, fun r => rfl, fun cs => ?_, by decide⟩
  show tyDecodeCore cs 1 = _
  exact tyDecodeCore_succ cs 0

/-- C3 (counterexample): equality is not equivalent to equal encodings:
`Object("a.b")` and `Object("a/b")` have the same encoding `"La/b;"`
(because `slashed()` maps dots to slashes and class names are
unvalidated), yet the dataclass equality distinguishes them. -/
theorem type_eq_encoding_mismatch :
    Ty.encode (Ty.obj ⟨"a.b"⟩) = Ty.encode (Ty.obj ⟨"a/b"⟩) ∧
    tyEq (Ty.obj ⟨"a.b"⟩) (Ty.obj ⟨"a/b"⟩) = false ∧
    Ty.obj ⟨"a.b"⟩ ≠ Ty.obj ⟨"a/b"⟩ :=
  ⟨by decide, by decide, by decide⟩

/-- C3 (amended): `t1 == t2` exactly when the two types are structurally
identical (same variant, recursively same payload); structural equality
always implies equal encodings, and conversely equal encodings imply
equality whenever the object class names involved contain no `/`. -/
theorem type_eq_structural_encode_inj :
    ∀ t₁ t₂ : Ty,
      (tyEq t₁ t₂ = true ↔ t₁ = t₂) ∧
      (t₁ = t₂ → Ty.encode t₁ = Ty.encode t₂) ∧
      (noSlash t₁ = true → noSlash t₂ = true →
        Ty.encode t₁ = Ty.encode t₂ → t₁ = t₂) := by
  intro t₁ t₂
  refine ⟨tyEq_iff t₁ t₂, fun h => by rw [h], fun h₁ h₂ h => ?_⟩
  exact tyEncodeL_inj t₁ h₁ t₂ h₂ (congrArg String.data h)

/-- C3 (witness): the encoding-injectivity direction at a concrete
slash-free object type. -/
theorem type_eq_structural_encode_inj_witness :
    Ty.obj ⟨"p.Q"⟩ = Ty.obj ⟨"p.Q"⟩ :=
  (type_eq_structural_encode_inj (Ty.obj ⟨"p.Q"⟩) (Ty.obj ⟨"p.Q"⟩)).2.2
    (by decide) (by decide) rfl

/-- C4: the tokenizer does NOT fail on unrecognized characters — it is
built on `re.finditer` with no catch-all rule, so unmatched characters
are silently skipped: `Value.decode("@1")` succeeds with `[1]` instead of
raising an unrecognized-token error at the `@`, and `Value.decode("@")`
silently yields the empty list. -/
theorem tokenizer_skips_unrecognized :
    valueDecode "@1" = .ok [⟨Ty.int, PyVal.i 1⟩] ∧
    valueDecode "@" = .ok [] :=
  ⟨by decide, by decide⟩

/-- C5: `MethodID.decode` matches `name:(params)return` with the longest
method name up to the last viable `:(`...`)` pair (so names containing
colons work), the `params` group extending to the last `)`; when the
pattern has no match the invalid-method-id error is raised.  Concretely,
`"run:(IC)Z"` gives name `run`, params `[Int, Char]`, return `Boolean`,
and `"bad"` fails. -/
theorem methodid_decode_spec :
    (∀ line n p r : List Char, methodIdMatch line = some (n, p, r) →
      line = n ++ ':' :: '(' :: (p ++ ')' :: r) ∧
      r.contains ')' = false ∧
      (∀ n' p' r', line = n' ++ ':' :: '(' :: (p' ++ ')' :: r') →
        n'.length ≤ n.length)) ∧
    (∀ line : List Char, methodIdMatch line = none →
      ∀ n p r, line ≠ n ++ ':' :: '(' :: (p ++ ')' :: r)) ∧
    (∀ s : String, methodIdMatch (firstLine s.data) = none →
      methodIdDecode s = .error "invalid method name") ∧
    methodIdDecode "run:(IC)Z" =
      .ok ⟨"run", ⟨[Ty.int, Ty.char]⟩, some Ty.boolean⟩ ∧
    methodIdDecode "bad" = .error "invalid method name" := by
  refine ⟨fun line n p r h => methodIdMatch_eq_some h,
    fun line h => methodIdMatch_eq_none h, fun s h => ?_, by decide, by decide⟩
  unfold methodIdDecode
  rw [h]

/-- C5 (witness): the match characterization applied to the concrete line
`x:(I)V`. -/
theorem methodid_decode_spec_witness :
    ('x' :: ':' :: '(' :: 'I' :: ')' :: 'V' :: ([] : List Char)) =
      ['x'] ++ ':' :: '(' :: (['I'] ++ ')' :: ['V']) :=
  (methodid_decode_spec.1 ['x', ':', '(', 'I', ')', 'V'] ['x'] ['I'] ['V']
    (by decide)).1

/-- C6 (counterexample): the round-trip fails for an `Absolute` whose
method name contains a dot: encoding `C` . `a.b:()V` gives
`"C.a.b:()V"`, and decode splits at the *last* dot, returning class
`C.a` and method `b` instead of the original value. -/
theorem absolute_roundtrip_dotted_name_fails :
    absoluteDecode methodIdDecode
        (absoluteEncode MethodID.encode ⟨⟨"C"⟩, ⟨"a.b", ⟨[]⟩, none⟩⟩) =
      .ok ⟨⟨"C.a"⟩, ⟨"b", ⟨[]⟩, none⟩⟩ ∧
    absoluteDecode methodIdDecode
        (absoluteEncode MethodID.encode ⟨⟨"C"⟩, ⟨"a.b", ⟨[]⟩, none⟩⟩) ≠
      .ok ⟨⟨"C"⟩, ⟨"a.b", ⟨[]⟩, none⟩⟩ :=
  ⟨by decide, by decide⟩

/-- C6 (amended): `Absolute.decode` splits at the last dot of the (first
line of the) input, requiring a nonempty class-name prefix, regardless of
whether the suffix parses under the element decoder; with no dot it fails
with the invalid-absolute-name error.  The round-trip
`decode(a.encode()) = a` holds whenever the element decoder inverts the
element encoding and the encoded extension contains no dot (and no
newline, and the class name is nonempty and newline-free). -/
theorem absolute_split_decode {T : Type} (encE : T → String)
    (decE : String → Except String T) :
    (∀ s : String, ('.' : Char) ∉ s.data →
      absoluteDecode decE s = .error "invalid absolute method name") ∧
    (∀ (cn : ClassName) (ext : T),
      decE (encE ext) = .ok ext →
      ('.' : Char) ∉ (encE ext).data →
      newlineChar ∉ (encE ext).data →
      cn.asString.data ≠ [] →
      newlineChar ∉ cn.asString.data →
      absoluteDecode decE (absoluteEncode encE ⟨cn, ext⟩) = .ok ⟨cn, ext⟩) := by
  constructor
  · intro s h
    unfold absoluteDecode
    rw [lastDotSplit_no_dot (fun hm => h (mem_firstLine hm))]
  · intro cn ext hdec hdot hnl hcn hnl2
    have hs : absoluteEncode encE ⟨cn, ext⟩ = cn.asString ++ "." ++ encE ext := rfl
    rw [hs]
    unfold absoluteDecode
    have hdata : (cn.asString ++ "." ++ encE ext).data =
        cn.asString.data ++ '.' :: (encE ext).data := by
      simp [String.data_append]
    rw [hdata]
    have hfl : firstLine (cn.asString.data ++ '.' :: (encE ext).data) =
        cn.asString.data ++ '.' :: (encE ext).data := by
      apply firstLine_of_not_mem
      intro hm
      rcases List.mem_append.mp hm with h' | h'
      · exact hnl2 h'
      · rcases List.mem_cons.mp h' with h'' | h''
        · exact absurd h'' (by decide)
        · exact hnl h''
    rw [hfl, lastDotSplit_concat cn.asString.data (encE ext).data hcn hdot]
    show (decE (String.mk (encE ext).data)).map
        (fun e => (⟨ClassName.decode (String.mk cn.asString.data), e⟩ : Absolute T)) =
      .ok (⟨cn, ext⟩ : Absolute T)
    rw [show String.mk (encE ext).data = encE ext from rfl, hdec]
    rfl

/-- C6 (witness): the amended round-trip at the concrete absolute field
name `a.b` . `x:I`. -/
theorem absolute_split_decode_witness :
    absoluteDecode fieldIdDecode
        (absoluteEncode FieldID.encode ⟨⟨"a.b"⟩, ⟨"x", Ty.int⟩⟩) =
      .ok ⟨⟨"a.b"⟩, ⟨"x", Ty.int⟩⟩ :=
  (absolute_split_decode FieldID.encode fieldIdDecode).2 ⟨"a.b"⟩ ⟨"x", Ty.int⟩
    (by decide) (by decide) (by decide) (by decide) (by decide)

/-- C7: decoding the literal `[I:1, 2, 3]` yields one `Array(Int)`-typed
value whose payload is the ordered tuple `(1, 2, 3)`, and encoding that
value reproduces exactly `"[I:1, 2, 3]"`. -/
theorem value_array_roundtrip :
    valueDecode "[I:1, 2, 3]" = .ok [⟨Ty.array Ty.int, PyVal.ints [1, 2, 3]⟩] ∧
    valueEncode ⟨Ty.array Ty.int, PyVal.ints [1, 2, 3]⟩ = .ok "[I:1, 2, 3]" :=
  ⟨by decide, by decide⟩

/-- C8: `FieldID.decode` splits on the first colon; without a colon it
fails with the invalid-field-id error (concretely on `"noColon"`); when
the type portion leaves a nonempty remainder it fails with the
extra-characters error; on success it returns the name with the fully
decoded type. -/
theorem fieldid_decode_spec :
    (∀ s : String, splitFirstColon s.data = none →
      fieldIdDecode s = .error ("invalid field id format: " ++ s)) ∧
    (∀ n r : List Char, (':' : Char) ∉ n →
      splitFirstColon (n ++ ':' :: r) = some (n, r)) ∧
    (∀ (n r : List Char) (t : Ty), (':' : Char) ∉ n →
      tyDecodeCore r 0 = .ok (t, []) →
      fieldIdDecode (String.mk (n ++ ':' :: r)) = .ok ⟨String.mk n, t⟩) ∧
    (∀ (n r : List Char) (t : Ty) (rem : List Char), (':' : Char) ∉ n →
      tyDecodeCore r 0 = .ok (t, rem) → rem ≠ [] →
      fieldIdDecode (String.mk (n ++ ':' :: r)) =
        .error ("extra characters in field type: " ++ String.mk rem)) ∧
    fieldIdDecode "noColon" = .error "invalid field id format: noColon" := by
  refine ⟨?_, splitFirstColon_append, ?_, ?_, by decide⟩
  · intro s h
    unfold fieldIdDecode
    rw [h]
  · intro n r t hn hty
    rw [fieldIdDecode_split n r hn, hty]
  · intro n r t rem hn hty hne
    rw [fieldIdDecode_split n r hn, hty]
    cases rem with
    | nil => exact absurd rfl hne
    | cons a as => rfl

/-- C8 (witness): decoding the concrete field id `x:I`. -/
theorem fieldid_decode_spec_witness :
    fieldIdDecode (String.mk (['x'] ++ ':' :: ['I'])) = .ok ⟨String.mk ['x'], Ty.int⟩ :=
  fieldid_decode_spec.2.2.1 ['x'] ['I'] Ty.int (by decide) rfl

/-- C9: `ParameterType.decode` is total modulo failure: every successful
`Type.decode` consumes at least one character, so the length of the input
bounds the iteration count (any fuel at least the input length gives the
same result, and the whole input is consumed on success); decoding the
empty string yields the empty parameter list. -/
theorem paramtype_decode_total :
    (∀ (cs : List Char) (k : Nat) (t : Ty) (rest : List Char),
      tyDecodeCore cs k = .ok (t, rest) → rest.length < cs.length) ∧
    (∀ (fuel : Nat) (cs : List Char), cs.length ≤ fuel →
      paramDecodeAux fuel cs = paramDecodeCore cs) ∧
    paramDecode "" = .ok ⟨[]⟩ :=
  ⟨tyDecodeCore_progress, paramDecodeAux_fuel, rfl⟩

/-- C9 (witness): progress and fuel-independence at concrete inputs. -/
theorem paramtype_decode_total_witness :
    ([] : List Char).length < (['I'] : List Char).length ∧
    paramDecodeAux 5 ['I', 'C'] = paramDecodeCore ['I', 'C'] :=
  ⟨paramtype_decode_total.1 ['I'] 0 Ty.int [] rfl,
   paramtype_decode_total.2.1 5 ['I', 'C'] (by decide)⟩

/-- C10: `ClassName.decode` is total and validates nothing: every string,
well-formed or not, is accepted as-is, and `encode` returns it
unchanged. -/
theorem classname_decode_total :
    ∀ s : String, ClassName.decode s = ⟨s⟩ ∧ (ClassName.decode s).encode = s :=
  fun _ => ⟨rfl, rfl⟩
